import Mathlib

/-!
# Verification of the PizzaBot route-evaluation engine (`basic.py`)

Shallow embedding of the data model and the operations of `basic.py`:
the piecewise-constant freshness score lookup (`freshness_function`),
the shortest-path transit query (`find_transit_time`, a model of
`networkx.dijkstra_path_length` on the digraph built by
`add_weighted_edges_from`), the route simulator (`arrival_times`),
the evaluator (`evaluate`) and the instruction renderer
(`instruction_file`).

Modelling conventions:
* clock values (`datetime` objects combined from "today" and an `HH:MM`
  time) are integers counting minutes from today's midnight; the
  `strftime("%H:%M")` rendering of a clock value keeps it modulo 1440;
* Python dicts are association lists in insertion order; `d[k] = v`
  replaces in place when the key exists, else appends (`dinsert`);
  `d[k]` reads propagate a missing key (`KeyError`) as `none`;
* a Python exception escaping a function is `none`; a function that
  computes normally returns `some` of its result;
* freshness interval bounds are rationals extended with `⊤`
  (`float('inf')` in the source); offsets are rationals, extended with
  `⊤` for the unserved evaluation at `float('inf')`.
-/

/-- A directed edge `(tail, head, transit_time)` as in the `[graph]`
section of an instance file. -/
abbrev Edge := String × String × ℕ

/-- One interval `(start_t, end_t, score)` of a piecewise-constant
freshness function, as produced by `parse_freshness`: finite lower
bound, upper bound possibly `float('inf')`. -/
structure FInterval where
  lo : ℚ
  hi : WithTop ℚ
  score : ℤ
deriving DecidableEq, Repr

/-- A customer order (the per-id payload of the `inst.orders` dict):
restaurant node, customer node, ready time (minutes of day) and the
parsed freshness function. -/
structure order where
  restaurant_location : String
  customer_location : String
  ready_time : ℤ
  freshness_function : List FInterval
deriving DecidableEq, Repr

/-- The time horizon dict; only `start` is read by the simulator. -/
structure time_horizon where
  start : ℤ
  stop : ℤ
deriving DecidableEq, Repr

/-- A parsed problem instance (`problem_instance` in the source):
bot id ↦ start location, edge list, time horizon, order id ↦ order. -/
structure problem_instance where
  bots : List (String × String)
  graph : List Edge
  horizon : time_horizon
  orders : List (String × order)
deriving DecidableEq, Repr

/-- A parsed solution: one `(bot_id, order ids in visiting order)` pair
per line of the solution file. -/
abbrev Solution := List (String × List String)

/-- The value stored for an order by `arrival_times`: either the
`"HH:MM"` arrival string (kept as minutes of day) or `"unserved"`. -/
inductive Arrival where
  | served (hm : ℤ)
  | unserved
deriving DecidableEq, Repr

/-- Python dict read `d[k]`: first entry with the given key. -/
def lookupS {α : Type} (k : String) : List (String × α) → Option α
  | [] => none
  | (k', v) :: rest => if k' = k then some v else lookupS k rest

/-- Python dict write `d[k] = v`: replace in place if the key exists,
else append. -/
def dinsert {α : Type} (m : List (String × α)) (k : String) (v : α) :
    List (String × α) :=
  match m with
  | [] => [(k, v)]
  | (k', v') :: rest =>
    if k' = k then (k, v) :: rest else (k', v') :: dinsert rest k v

/-- The function `freshness_function(arrival_difference, freshness_list)` from the
source: scan the intervals in order and return the score of the first
interval with `lo ≤ d < hi`; when no interval matches, the trailing
`return score` returns the loop variable left over from the last
interval, i.e. the last interval's score.  An empty list raises
`NameError` (`score` unbound), modelled as `none`. -/
def freshness_function (d : WithTop ℚ) : List FInterval → Option ℤ
  | [] => none
  | iv :: rest =>
    if (iv.lo : WithTop ℚ) ≤ d ∧ d < iv.hi then some iv.score
    else
      match rest with
      | [] => some iv.score
      | _ :: _ => freshness_function d rest

/-! ## The shortest-path resolver

`find_transit_time` builds a `networkx.DiGraph` from the edge list
(`add_weighted_edges_from`: for duplicate `(tail, head)` pairs the last
weight wins) and runs `nx.dijkstra_path_length`.  With the non-negative
weights of the data model, Dijkstra's result is the minimum cost over
all walks, and a minimum-cost walk uses fewer edges than the number of
nodes, so it is modelled as the minimum cost over walks of bounded
length.  `nx.dijkstra_path_length` raises `NodeNotFound` when the
source is not a node of the graph and `NetworkXNoPath` when the target
cannot be reached; both are `none`. -/

/-- Model of `add_weighted_edges_from`: keep the last weight for each
`(tail, head)` pair. -/
def edgeUpdate : List Edge → Edge → List Edge
  | [], e => [e]
  | (t, h, w) :: rest, (t', h', w') =>
    if t = t' ∧ h = h' then (t', h', w') :: rest
    else (t, h, w) :: edgeUpdate rest (t', h', w')

/-- The edge set of the `networkx` digraph built from a raw edge list. -/
def nx_weights (g : List Edge) : List Edge :=
  g.foldl edgeUpdate []

/-- The nodes of the digraph (every tail and every head). -/
def graph_nodes (g : List Edge) : List String :=
  (g.map (fun e => e.1) ++ g.map (fun e => e.2.1)).dedup

/-- Minimum of two optional costs (`none` = no walk found). -/
def optMinCost : Option ℕ → Option ℕ → Option ℕ
  | none, b => b
  | some a, none => some a
  | some a, some b => some (min a b)

/-- Minimum cost of a walk from `s` to `e` using at most `fuel` edges
of `es` (`some 0` immediately when `s = e`). -/
def walkCostF (es : List Edge) (e : String) : ℕ → String → Option ℕ
  | 0 => fun s => if s = e then some 0 else none
  | f + 1 =>
    let prev := walkCostF es e f
    fun s =>
      if s = e then some 0
      else
        (es.filter (fun ed => ed.1 = s)).foldl
          (fun acc ed => optMinCost acc ((prev ed.2.1).map (fun c => ed.2.2 + c)))
          none

/-- The function `find_transit_time(start, end, graph)` from the source. -/
def find_transit_time (s e : String) (g : List Edge) : Option ℕ :=
  if s ∈ graph_nodes g then
    walkCostF (nx_weights g) e (graph_nodes g).length s
  else none

/-- Reachability in the loaded digraph: `e` can be reached from `s`
along directed edges of `g`. -/
inductive Reachable (g : List Edge) : String → String → Prop
  | refl (s : String) : Reachable g s s
  | step {s m e : String} {w : ℕ} :
      (s, m, w) ∈ g → Reachable g m e → Reachable g s e

/-! ## The route simulator (`arrival_times`) -/

/-- The running state of one bot inside the simulation loop:
`start_location` and the current clock `time_dt`. -/
structure BotState where
  loc : String
  time : ℤ
deriving DecidableEq, Repr

/-- The four clock checkpoints of one processed order. -/
structure Checkpoints where
  restArrival : ℤ
  departure : ℤ
  custArrival : ℤ
  release : ℤ
deriving DecidableEq, Repr

/-- One iteration of the inner loop of `arrival_times`: travel to the
restaurant, one minute to enter, wait until the ready time if the order
is not ready, one minute to exit, travel to the customer, then five
minutes for the delivery process; the bot ends at the customer. -/
def process_order (g : List Edge) (st : BotState) (o : order) :
    Option (BotState × Checkpoints) := do
  let t1 ← find_transit_time st.loc o.restaurant_location g
  let restArr := st.time + (t1 : ℤ)
  let entered := restArr + 1
  let waited := if entered < o.ready_time then o.ready_time else entered
  let dep := waited + 1
  let t2 ← find_transit_time o.restaurant_location o.customer_location g
  let custArr := dep + (t2 : ℤ)
  pure (⟨o.customer_location, custArr + 5⟩, ⟨restArr, dep, custArr, custArr + 5⟩)

/-- The inner loop of `arrival_times` over one bot's order list: thread
the bot state, record each customer arrival as its minutes-of-day
rendering (`strftime("%H:%M")`), and also return the final clock and
the chronological list of checkpoints. -/
def run_orders (inst : problem_instance) :
    BotState → List String → List (String × Arrival) →
    Option (List (String × Arrival) × ℤ × List ℤ)
  | st, [], acc => some (acc, st.time, [])
  | st, oid :: rest, acc => do
    let o ← lookupS oid inst.orders
    let (st', cp) ← process_order inst.graph st o
    let (m, t, cps) ←
      run_orders inst st' rest (dinsert acc oid (Arrival.served (cp.custArrival % 1440)))
    pure (m, t, cp.restArrival :: cp.departure :: cp.custArrival :: cp.release :: cps)

/-- The outer loop of `arrival_times` over the bots of the solution.
The clock `time_dt` is initialised once, before this loop, and is NOT
reset per bot: each bot continues from the clock value left by the
previous bot (only `start_location` is re-read per bot). -/
def run_bots (inst : problem_instance) :
    ℤ → Solution → List (String × Arrival) → Option (List (String × Arrival))
  | _, [], acc => some acc
  | t, (b, oids) :: rest, acc => do
    let loc ← lookupS b inst.bots
    let (acc', t', _) ← run_orders inst ⟨loc, t⟩ oids acc
    run_bots inst t' rest acc'

/-- The function `arrival_times` from the source: simulate every bot's sequence,
then report every order of the instance that received no arrival entry
as `"unserved"` (appended in instance order). -/
def arrival_times (inst : problem_instance) (sol : Solution) :
    Option (List (String × Arrival)) := do
  let m ← run_bots inst inst.horizon.start sol []
  pure (m ++ (inst.orders.filter (fun p => (lookupS p.1 m).isNone)).map
    (fun p => (p.1, Arrival.unserved)))

/-! ## The evaluator (`evaluate`) -/

/-- The score contribution of one served order inside the first loop of
`evaluate`: re-parse the stored `"HH:MM"` arrival, subtract the ready
time and look the difference up in the order's freshness function.  A
stored `"unserved"` makes `strptime` raise `ValueError` (`none`). -/
def order_score (inst : problem_instance) (arr : List (String × Arrival))
    (oid : String) : Option ℤ := do
  let o ← lookupS oid inst.orders
  let a ← lookupS oid arr
  match a with
  | Arrival.served hm =>
    freshness_function (((hm - o.ready_time : ℤ) : ℚ) : WithTop ℚ) o.freshness_function
  | Arrival.unserved => none

/-- The value of the local variable `total_score` of `evaluate` at the
point where it is printed: served orders summed per occurrence in the
solution, then `freshness_function(float('inf'), ...)` for every
`"unserved"` entry of the arrival dict. -/
def evaluate_total_score (inst : problem_instance) (sol : Solution) : Option ℤ := do
  let arr ← arrival_times inst sol
  let served ← sol.foldlM (fun acc p => do
    let _ ← lookupS p.1 inst.bots
    p.2.foldlM (fun acc2 oid => do
      let s ← order_score inst arr oid
      pure (acc2 + s)) acc) (0 : ℤ)
  arr.foldlM (fun acc p =>
    match p.2 with
    | Arrival.unserved => do
      let o ← lookupS p.1 inst.orders
      let s ← freshness_function ⊤ o.freshness_function
      pure (acc + s)
    | Arrival.served _ => pure acc) served

/-- The function `evaluate` from the source: it computes and prints `total_score`
but ends in a bare `return`, so the Python function's value is `None`
(the inner `none`); an exception while computing is the outer `none`. -/
def evaluate (inst : problem_instance) (sol : Solution) : Option (Option ℤ) := do
  let _ ← evaluate_total_score inst sol
  pure none

/-! ## The instruction renderer (`instruction_file`)

The renderer re-reads the instance and the solution, builds the same
`networkx` digraph, and for each bot, for each order in sequence,
writes every node of `nx.dijkstra_path` after the current position as a
`go to` line, then `collect food`, then the same for the path from the
restaurant to the customer, then `deliver food`, updating `location`
at every emitted `go to`.  (The source body reads the order details
from the module-level name `inst`; in the source's entry point that
name holds the instance parsed from the same input file, so it is
modelled as the instance parameter.)  `nx.dijkstra_path` returns a
minimum-cost node sequence from source to target inclusive, raising
when the source is missing or the target unreachable; it is modelled
as a minimum-cost bounded walk carrying its node list. -/

/-- One line of the instruction file below the bot header. -/
inductive BotAction where
  | move (n : String)
  | collect
  | deliver
deriving DecidableEq, Repr

/-- Minimum-cost walk (cost and node list, endpoints included) from `s`
to `e` using at most `fuel` edges; ties keep the earlier candidate. -/
def walkPathF (es : List Edge) (e : String) : ℕ → String → Option (ℕ × List String)
  | 0 => fun s => if s = e then some (0, [s]) else none
  | f + 1 =>
    let prev := walkPathF es e f
    fun s =>
      if s = e then some (0, [s])
      else
        (es.filter (fun ed => ed.1 = s)).foldl
          (fun acc ed =>
            match prev ed.2.1 with
            | none => acc
            | some (c, p) =>
              match acc with
              | none => some (ed.2.2 + c, s :: p)
              | some (c', p') =>
                if ed.2.2 + c < c' then some (ed.2.2 + c, s :: p) else some (c', p'))
          none

/-- Model of `nx.dijkstra_path(DG, s, e)`: the node list of a
minimum-cost path. -/
def nx_dijkstra_path (s e : String) (g : List Edge) : Option (List String) :=
  if s ∈ graph_nodes g then
    (walkPathF (nx_weights g) e (graph_nodes g).length s).map (fun p => p.2)
  else none

/-- The instruction lines emitted for one order, together with the
bot's position after the leg (the last emitted `go to` node, or the
unchanged position when no node was emitted). -/
def render_order (inst : problem_instance) (loc : String) (oid : String) :
    Option (List BotAction × String) := do
  let o ← lookupS oid inst.orders
  let p1 ← nx_dijkstra_path loc o.restaurant_location inst.graph
  let loc1 := (p1.drop 1).foldl (fun _ n => n) loc
  let p2 ← nx_dijkstra_path loc1 o.customer_location inst.graph
  let loc2 := (p2.drop 1).foldl (fun _ n => n) loc1
  pure ((p1.drop 1).map BotAction.move ++ [BotAction.collect] ++
        (p2.drop 1).map BotAction.move ++ [BotAction.deliver], loc2)

/-- The instruction lines emitted for one bot's order sequence. -/
def render_orders (inst : problem_instance) : String → List String → Option (List BotAction)
  | _, [] => some []
  | loc, oid :: rest => do
    let (acts, loc') ← render_order inst loc oid
    let acts' ← render_orders inst loc' rest
    pure (acts ++ acts')

/-- The function `instruction_file` from the source: one `([bot_id], lines)` section
per solution line, the bot starting at its declared location. -/
def instruction_file (inst : problem_instance) (sol : Solution) :
    Option (List (String × List BotAction)) :=
  match sol with
  | [] => some []
  | (b, oids) :: rest => do
    let loc ← lookupS b inst.bots
    let acts ← render_orders inst loc oids
    let out ← instruction_file inst rest
    pure ((b, acts) :: out)

/-- The `collect`/`deliver` targets of one bot's order sequence:
`(true, restaurant)` then `(false, customer)` for each order. -/
def targets (inst : problem_instance) : List String → Option (List (Bool × String))
  | [] => some []
  | oid :: rest => do
    let o ← lookupS oid inst.orders
    let ts ← targets inst rest
    pure ((true, o.restaurant_location) :: (false, o.customer_location) :: ts)

/-- Replay a bot's instruction lines from a start position: every
`go to` moves the position; every `collect food` must happen exactly at
the next pending restaurant and every `deliver food` exactly at the
next pending customer, in sequence order, with no lines left over. -/
def replay_check : String → List (Bool × String) → List BotAction → Bool
  | _, [], [] => true
  | _, ts, BotAction.move n :: rest => replay_check n ts rest
  | loc, (true, tgt) :: ts, BotAction.collect :: rest =>
    if loc = tgt then replay_check loc ts rest else false
  | loc, (false, tgt) :: ts, BotAction.deliver :: rest =>
    if loc = tgt then replay_check loc ts rest else false
  | _, _, _ => false

/-! ## Concrete instances used by counterexamples and witnesses -/

/-- The freshness function `[(0,5,100),(5,inf,0)]` of the spec's
concrete scenarios. -/
def exFresh : List FInterval := [⟨0, ((5 : ℚ) : WithTop ℚ), 100⟩, ⟨5, ⊤, 0⟩]

/-- One order: restaurant `B`, customer `C`, ready at the horizon start
(12:00 = minute 720). -/
def exOrder : order := ⟨"B", "C", 720, exFresh⟩

/-- The spec's second concrete scenario: one bot at `A`, edges
`A→B` (1 min) and `B→C` (2 min), horizon starting at 12:00. -/
def exInst : problem_instance :=
  ⟨[("b1", "A")], [("A", "B", 1), ("B", "C", 2)], ⟨720, 780⟩, [("o1", exOrder)]⟩

/-- The single order assigned to the single bot. -/
def exSol : Solution := [("b1", ["o1"])]

/-- Same road network with two bots at `A` and two identical orders. -/
def twoInst : problem_instance :=
  ⟨[("b1", "A"), ("b2", "A")], [("A", "B", 1), ("B", "C", 2)], ⟨720, 780⟩,
   [("o1", exOrder), ("o2", exOrder)]⟩

/-- Both bots serve one order each. -/
def twoSolA : Solution := [("b1", ["o1"]), ("b2", ["o2"])]

/-- The first bot's sequence is emptied; the second bot is unchanged. -/
def twoSolB : Solution := [("b1", []), ("b2", ["o2"])]

/-! ## Freshness-function lemmas -/

/-- On a non-empty interval list the lookup always produces a value:
either some interval matches, or the trailing `return score` fires. -/
theorem freshness_isSome (d : WithTop ℚ) :
    ∀ (l : List FInterval), l ≠ [] → (freshness_function d l).isSome = true
  | [iv], _ => by
    simp only [freshness_function]
    split
    · rfl
    · rfl
  | iv :: iv2 :: rest, _ => by
    simp only [freshness_function]
    split
    · rfl
    · exact freshness_isSome d (iv2 :: rest) (by simp)

/-- When no interval matches the offset, the lookup returns the score
of the last interval (the leaked loop variable of the source). -/
theorem freshness_nomatch (d : WithTop ℚ) :
    ∀ (l : List FInterval),
      (∀ iv ∈ l, ¬((iv.lo : WithTop ℚ) ≤ d ∧ d < iv.hi)) →
      freshness_function d l = l.getLast?.map (fun iv => iv.score)
  | [], _ => rfl
  | [iv], hno => by
    simp only [freshness_function]
    rw [if_neg (hno iv (by simp))]
    rfl
  | iv :: iv2 :: rest, hno => by
    rw [freshness_function]
    rw [if_neg (hno iv (by simp))]
    rw [freshness_nomatch d (iv2 :: rest) (fun jv hj => hno jv (List.mem_cons_of_mem iv hj))]
    simp [List.getLast?_cons_cons]

/-- The offset `float('inf')` matches no interval (`inf < hi` always fails), so
the lookup at `⊤` returns the last interval's score. -/
theorem freshness_top (l : List FInterval) :
    freshness_function ⊤ l = l.getLast?.map (fun iv => iv.score) :=
  freshness_nomatch ⊤ l (fun _ _ h => not_top_lt h.2)

/-- A well-formed freshness partition: consecutive non-empty half-open
intervals, the upper bound of each being the lower bound of the next,
the last extending to `inf` — i.e. the intervals tile
`[first lo, +infinity)` with no gaps and no overlaps. -/
def chainedB : List FInterval → Bool
  | [] => false
  | [iv] => decide ((iv.lo : WithTop ℚ) < iv.hi) && decide (iv.hi = (⊤ : WithTop ℚ))
  | iv :: iv2 :: rest =>
    decide ((iv.lo : WithTop ℚ) < iv.hi) && decide (iv.hi = ((iv2.lo : ℚ) : WithTop ℚ)) &&
      chainedB (iv2 :: rest)

/-- The head interval of a chained list is non-empty. -/
theorem chained_head_lt :
    ∀ (iv : FInterval) (rest : List FInterval), chainedB (iv :: rest) = true →
      (iv.lo : WithTop ℚ) < iv.hi
  | _, [], hc => by
    simp only [chainedB, Bool.and_eq_true, decide_eq_true_eq] at hc
    exact hc.1
  | _, iv2 :: rest, hc => by
    simp only [chainedB, Bool.and_eq_true, decide_eq_true_eq] at hc
    exact hc.1.1

/-- In a chained list, every interval after the head starts no earlier
than the head's upper bound. -/
theorem chained_tail_lo :
    ∀ (iv : FInterval) (rest : List FInterval), chainedB (iv :: rest) = true →
      ∀ jv ∈ rest, iv.hi ≤ ((jv.lo : ℚ) : WithTop ℚ)
  | _, [], _, _, hj => absurd hj (List.not_mem_nil _)
  | iv, iv2 :: rest, hc, jv, hj => by
    simp only [chainedB, Bool.and_eq_true, decide_eq_true_eq] at hc
    rcases List.mem_cons.mp hj with rfl | hj'
    · exact le_of_eq hc.1.2
    · calc iv.hi = ((iv2.lo : ℚ) : WithTop ℚ) := hc.1.2
        _ ≤ iv2.hi := le_of_lt (chained_head_lt iv2 rest hc.2)
        _ ≤ ((jv.lo : ℚ) : WithTop ℚ) := chained_tail_lo iv2 rest hc.2 jv hj'

/-- In a chained list, looking up an interval's own lower bound returns
that interval's score (the boundary belongs to the interval whose `lo`
equals the offset). -/
theorem chained_boundary :
    ∀ (l : List FInterval), chainedB l = true →
      ∀ iv ∈ l, freshness_function ((iv.lo : ℚ) : WithTop ℚ) l = some iv.score
  | [], hc, _, _ => by simp [chainedB] at hc
  | jv :: rest, hc, iv, hiv => by
    have hlohi : (jv.lo : WithTop ℚ) < jv.hi := by
      cases rest with
      | nil => simp only [chainedB, Bool.and_eq_true, decide_eq_true_eq] at hc; exact hc.1
      | cons jv2 rest' =>
        simp only [chainedB, Bool.and_eq_true, decide_eq_true_eq] at hc; exact hc.1.1
    rcases List.mem_cons.mp hiv with rfl | hiv'
    · cases rest with
      | nil => simp [freshness_function, le_refl, hlohi]
      | cons jv2 rest' => rw [freshness_function, if_pos ⟨le_refl _, hlohi⟩]
    · have hge : jv.hi ≤ ((iv.lo : ℚ) : WithTop ℚ) := chained_tail_lo jv rest hc iv hiv'
      have hnm : ¬((jv.lo : WithTop ℚ) ≤ ((iv.lo : ℚ) : WithTop ℚ) ∧
          ((iv.lo : ℚ) : WithTop ℚ) < jv.hi) := fun h => absurd h.2 (not_lt.mpr hge)
      cases rest with
      | nil => exact absurd hiv' (List.not_mem_nil _)
      | cons jv2 rest' =>
        rw [freshness_function, if_neg hnm]
        have hc' : chainedB (jv2 :: rest') = true := by
          simp only [chainedB, Bool.and_eq_true, decide_eq_true_eq] at hc
          exact hc.2
        exact chained_boundary (jv2 :: rest') hc' iv hiv'

/-! ## Claim theorems -/

/-- C1 (counterexample): on the concrete instance of the claim — one
bot at `A`, one order with restaurant `B`, customer `C`, ready at the
horizon start 12:00 (minute 720), freshness `[(0,5,100),(5,inf,0)]`,
edges `A→B` 1 min and `B→C` 2 min, that order assigned to that bot —
the code does NOT produce a customer arrival of start+4 (12:04, minute
724), and the total score is NOT 100. -/
theorem C1_counterexample :
    arrival_times exInst exSol ≠ some [("o1", Arrival.served 724)] ∧
    evaluate_total_score exInst exSol ≠ some 100 := by decide

/-- C1 (amended): on that instance the simulated customer arrival is
start+5 (12:05, minute 725), hence offset 5, which falls in the second
interval `(5,inf,0)`, and the total freshness score is 0: the bot
reaches the restaurant at start+1, spends one minute entering, does not
wait, spends one minute exiting (departure start+3), and travels 2 more
minutes. -/
theorem C1_amended_values :
    arrival_times exInst exSol = some [("o1", Arrival.served 725)] ∧
    evaluate_total_score exInst exSol = some 0 := by decide

/-- C2 (counterexample): with the bot at `A` at minute 720 and the
order ready at 720, the arrival at the restaurant is `a = 721`
(current time + transit), and the code departs at 723, not at
`max(a + 1, r + 1) = 722` as the claim states. -/
theorem C2_counterexample :
    (process_order exInst.graph ⟨"A", 720⟩ exOrder).map (fun r => r.2.departure) =
      some 723 ∧
    ¬(723 : ℤ) = max ((721 : ℤ) + 1) (720 + 1) := by decide

/-- C2 (amended): letting `a = st.time + t1` be the arrival at the
restaurant and `r` the ready time, the code departs the restaurant at
`max(a + 2, r + 1)`: one minute to enter, a wait until `r` if the order
is not yet ready, then one further minute to exit. -/
theorem C2_amended_departure (g : List Edge) (st : BotState) (o : order) (t1 : ℕ)
    (res : BotState × Checkpoints)
    (h1 : find_transit_time st.loc o.restaurant_location g = some t1)
    (h2 : process_order g st o = some res) :
    res.2.departure = max (st.time + (t1 : ℤ) + 2) (o.ready_time + 1) := by
  rw [process_order, h1] at h2
  cases hf : find_transit_time o.restaurant_location o.customer_location g with
  | none => rw [hf] at h2; simp at h2
  | some t2 =>
    rw [hf] at h2
    rw [Option.pure_def] at h2
    injection h2 with h2
    subst h2
    simp only []
    split_ifs <;> omega

/-- C2 witness: the amended rule evaluated on the concrete scenario. -/
theorem C2_amended_witness :
    ((⟨"C", 730⟩, ⟨721, 723, 725, 730⟩) : BotState × Checkpoints).2.departure =
      max ((720 : ℤ) + ((1 : ℕ) : ℤ) + 2) (720 + 1) :=
  C2_amended_departure exInst.graph ⟨"A", 720⟩ exOrder 1
    (⟨"C", 730⟩, ⟨721, 723, 725, 730⟩) (by decide) (by decide)

/-- C3 (code bug): the clock `time_dt` is initialised once, before the
bot loop of `arrival_times`, and never reset, so the second bot starts
at the clock value left by the first bot instead of at the horizon
start.  With two bots at `A` and identical orders `o1`, `o2`, bot `b2`
delivers `o2` at minute 735 when `b1` serves `o1` first, but at minute
725 when `b1`'s sequence is empty — `o2`'s arrival time depends on
`b1`'s sequence, refuting per-bot independence. -/
theorem C3_clock_carryover :
    arrival_times twoInst twoSolA =
      some [("o1", Arrival.served 725), ("o2", Arrival.served 735)] ∧
    arrival_times twoInst twoSolB =
      some [("o2", Arrival.served 725), ("o1", Arrival.unserved)] := by decide

/-- C4 (code bug): `evaluate` computes and prints the total freshness
score (here 0 on the concrete scenario) but ends in a bare `return`,
so the function's Python return value is `None` (the inner `none`),
not the documented integer. -/
theorem C4_returns_none :
    evaluate exInst exSol = some none ∧
    evaluate_total_score exInst exSol = some 0 ∧
    evaluate exInst exSol ≠ some (some 0) := by decide

/-- C9: for an order whose freshness intervals tile the offset line
with no gaps and no overlaps (consecutive half-open intervals, the last
extending to `inf`), the score lookup returns a value for every
rational offset, and at an offset equal to an interval's lower bound it
returns exactly that interval's score. -/
theorem C9_defined_and_boundary (l : List FInterval) (hc : chainedB l = true) :
    (∀ d : ℚ, (freshness_function (d : WithTop ℚ) l).isSome = true) ∧
    (∀ iv ∈ l, freshness_function ((iv.lo : ℚ) : WithTop ℚ) l = some iv.score) := by
  have hne : l ≠ [] := by
    intro h; subst h; simp [chainedB] at hc
  exact ⟨fun d => freshness_isSome (d : WithTop ℚ) l hne,
    fun iv hiv => chained_boundary l hc iv hiv⟩

/-- C9 witness: on `[(0,5,100),(5,inf,0)]` the offset 5 lies on the
boundary and receives the score of the interval starting at 5. -/
theorem C9_witness :
    freshness_function (((5 : ℚ)) : WithTop ℚ) exFresh = some 0 :=
  (C9_defined_and_boundary exFresh (by decide)).2 ⟨5, ⊤, 0⟩ (by decide)

/-- C10: on a non-empty interval list, an offset below the first
interval's lower bound (so that no interval matches it) is scored by
the trailing `return score`, i.e. receives the last interval's score,
as if infinitely late. -/
theorem C10_below_domain (l : List FInterval) (hne : l ≠ []) (d : ℚ)
    (hlt : d < (l.head hne).lo)
    (hnm : ∀ iv ∈ l, ¬(((iv.lo : ℚ) : WithTop ℚ) ≤ (d : WithTop ℚ) ∧
      (d : WithTop ℚ) < iv.hi)) :
    freshness_function (d : WithTop ℚ) l = some ((l.getLast hne).score) := by
  rw [freshness_nomatch (d : WithTop ℚ) l hnm, List.getLast?_eq_getLast l hne]
  rfl

/-- C10 witness: offset −1 on `[(0,5,100),(5,inf,0)]` scores 0. -/
theorem C10_witness :
    freshness_function ((-1 : ℚ) : WithTop ℚ) exFresh = some 0 :=
  C10_below_domain exFresh (by decide) (-1) (by decide) (by decide)

/-! ## Dictionary lemmas -/

/-- A key found on the left of an append is found in the append. -/
theorem lookupS_append_left {α : Type} (k : String) :
    ∀ (l₁ l₂ : List (String × α)) (v : α),
      lookupS k l₁ = some v → lookupS k (l₁ ++ l₂) = some v
  | [], _, v, h => by simp [lookupS] at h
  | (k', v') :: rest, l₂, v, h => by
    rw [lookupS] at h
    rw [List.cons_append, lookupS]
    by_cases hk : k' = k
    · rw [if_pos hk] at h; rw [if_pos hk]; exact h
    · rw [if_neg hk] at h; rw [if_neg hk]; exact lookupS_append_left k rest l₂ v h

/-- A key absent on the left of an append is looked up on the right. -/
theorem lookupS_append_right {α : Type} (k : String) :
    ∀ (l₁ l₂ : List (String × α)), lookupS k l₁ = none →
      lookupS k (l₁ ++ l₂) = lookupS k l₂
  | [], _, _ => rfl
  | (k', v') :: rest, l₂, h => by
    rw [lookupS] at h
    rw [List.cons_append, lookupS]
    by_cases hk : k' = k
    · rw [if_pos hk] at h; exact absurd h (by simp)
    · rw [if_neg hk] at h; rw [if_neg hk]; exact lookupS_append_right k rest l₂ h

/-- Looking up the key just written. -/
theorem lookupS_dinsert_self {α : Type} (k : String) (v : α) :
    ∀ (m : List (String × α)), lookupS k (dinsert m k v) = some v
  | [] => by simp [dinsert, lookupS]
  | (k', v') :: rest => by
    rw [dinsert]
    by_cases hk : k' = k
    · rw [if_pos hk]; simp [lookupS]
    · rw [if_neg hk, lookupS, if_neg hk]; exact lookupS_dinsert_self k v rest

/-- Writing one key leaves the lookup of any other key unchanged. -/
theorem lookupS_dinsert_ne {α : Type} (k j : String) (v : α) (hne : k ≠ j) :
    ∀ (m : List (String × α)), lookupS j (dinsert m k v) = lookupS j m
  | [] => by simp [dinsert, lookupS, hne]
  | (k', v') :: rest => by
    rw [dinsert]
    by_cases hk : k' = k
    · subst hk
      simp only [lookupS, if_neg hne]
    · rw [if_neg hk, lookupS, lookupS]
      by_cases hj : k' = j
      · rw [if_pos hj, if_pos hj]
      · rw [if_neg hj, if_neg hj]; exact lookupS_dinsert_ne k j v hne rest

/-- Every entry of `dinsert m k v` is the written pair or an old entry. -/
theorem mem_dinsert {α : Type} (k : String) (v : α) :
    ∀ (m : List (String × α)) (q : String × α),
      q ∈ dinsert m k v → q = (k, v) ∨ q ∈ m
  | [], q, hq => by simpa [dinsert] using hq
  | (k', v') :: rest, q, hq => by
    rw [dinsert] at hq
    by_cases hk : k' = k
    · rw [if_pos hk] at hq
      rcases List.mem_cons.mp hq with rfl | h'
      · exact Or.inl rfl
      · exact Or.inr (List.mem_cons_of_mem _ h')
    · rw [if_neg hk] at hq
      rcases List.mem_cons.mp hq with rfl | h'
      · exact Or.inr (List.mem_cons_self _ _)
      · rcases mem_dinsert k v rest q h' with h'' | h''
        · exact Or.inl h''
        · exact Or.inr (List.mem_cons_of_mem _ h'')

/-- A successful lookup exhibits a member. -/
theorem lookupS_mem {α : Type} (k : String) (v : α) :
    ∀ (m : List (String × α)), lookupS k m = some v → (k, v) ∈ m
  | [], h => by simp [lookupS] at h
  | (k', v') :: rest, h => by
    rw [lookupS] at h
    by_cases hk : k' = k
    · rw [if_pos hk] at h
      subst hk
      exact List.mem_cons.mpr (Or.inl (by injection h with h; rw [h]))
    · rw [if_neg hk] at h
      exact List.mem_cons_of_mem _ (lookupS_mem k v rest h)

/-- Looking up a present key in a list rewritten to a constant value. -/
theorem lookupS_const_map {α β : Type} (k : String) (c : β) :
    ∀ (l : List (String × α)), (∃ v, (k, v) ∈ l) →
      lookupS k (l.map (fun p => (p.1, c))) = some c
  | [], h => by simp at h
  | (k', v') :: rest, h => by
    rw [List.map_cons, lookupS]
    by_cases hk : k' = k
    · rw [if_pos hk]
    · rw [if_neg hk]
      apply lookupS_const_map
      obtain ⟨v, hv⟩ := h
      rcases List.mem_cons.mp hv with heq | hm
      · exact absurd (congrArg Prod.fst heq).symm hk
      · exact ⟨v, hm⟩

/-! ## Destructuring the simulator's loops -/

/-- Unfolding one step of the inner order loop. -/
theorem run_orders_cons (inst : problem_instance) (st : BotState) (oid : String)
    (rest : List String) (acc m : List (String × Arrival)) (t : ℤ) (cps : List ℤ) :
    run_orders inst st (oid :: rest) acc = some (m, t, cps) →
    ∃ o st' cp m' t' cps',
      lookupS oid inst.orders = some o ∧
      process_order inst.graph st o = some (st', cp) ∧
      run_orders inst st' rest
        (dinsert acc oid (Arrival.served (cp.custArrival % 1440))) =
        some (m', t', cps') ∧
      m = m' ∧ t = t' ∧
      cps = cp.restArrival :: cp.departure :: cp.custArrival :: cp.release :: cps' := by
  intro h
  simp only [run_orders, Option.bind_eq_bind, Option.bind_eq_some] at h
  obtain ⟨o, ho, h⟩ := h
  obtain ⟨⟨st', cp⟩, hp, h⟩ := h
  obtain ⟨⟨m', t', cps'⟩, hr, h⟩ := h
  simp only [Option.pure_def, Option.some.injEq, Prod.mk.injEq] at h
  exact ⟨o, st', cp, m', t', cps', ho, hp, hr, h.1.symm, h.2.1.symm, h.2.2.symm⟩

/-- Unfolding one step of the outer bot loop. -/
theorem run_bots_cons (inst : problem_instance) (t : ℤ) (b : String)
    (oids : List String) (rest : Solution) (acc m0 : List (String × Arrival)) :
    run_bots inst t ((b, oids) :: rest) acc = some m0 →
    ∃ loc acc' t' cps,
      lookupS b inst.bots = some loc ∧
      run_orders inst ⟨loc, t⟩ oids acc = some (acc', t', cps) ∧
      run_bots inst t' rest acc' = some m0 := by
  intro h
  simp only [run_bots, Option.bind_eq_bind, Option.bind_eq_some] at h
  obtain ⟨loc, hl, h⟩ := h
  obtain ⟨⟨acc', t', cps⟩, hr, h⟩ := h
  exact ⟨loc, acc', t', cps, hl, hr, h⟩

/-- Splitting a successful `arrival_times` into the simulated entries
and the appended `"unserved"` completion. -/
theorem arrival_times_eq (inst : problem_instance) (sol : Solution)
    (m : List (String × Arrival)) :
    arrival_times inst sol = some m →
    ∃ m0, run_bots inst inst.horizon.start sol [] = some m0 ∧
      m = m0 ++ (inst.orders.filter (fun p => (lookupS p.1 m0).isNone)).map
        (fun p => (p.1, Arrival.unserved)) := by
  intro h
  simp only [arrival_times, Option.bind_eq_bind, Option.bind_eq_some,
    Option.pure_def, Option.some.injEq] at h
  obtain ⟨m0, h0, hm⟩ := h
  exact ⟨m0, h0, hm.symm⟩

/-- The checkpoints of one processed order never run backwards, and
the bot is released exactly at the last checkpoint. -/
theorem process_order_mono (g : List Edge) (st : BotState) (o : order)
    (st' : BotState) (cp : Checkpoints) :
    process_order g st o = some (st', cp) →
    st.time ≤ cp.restArrival ∧ cp.restArrival ≤ cp.departure ∧
    cp.departure ≤ cp.custArrival ∧ cp.custArrival ≤ cp.release ∧
    st'.time = cp.release := by
  intro h
  simp only [process_order, Option.bind_eq_bind, Option.bind_eq_some] at h
  obtain ⟨t1, h1, h⟩ := h
  obtain ⟨t2, h2, h⟩ := h
  simp only [Option.pure_def, Option.some.injEq, Prod.mk.injEq] at h
  obtain ⟨hst, hcp⟩ := h
  subst hcp
  subst hst
  refine ⟨?_, ?_, ?_, ?_, rfl⟩ <;> simp only [] <;> omega

/-- The full checkpoint trace of one bot's sequence is bounded below by
the starting clock and non-decreasing. -/
theorem run_orders_chain (inst : problem_instance) :
    ∀ (st : BotState) (oids : List String) (acc m : List (String × Arrival))
      (t : ℤ) (cps : List ℤ),
      run_orders inst st oids acc = some (m, t, cps) →
      List.Chain (fun a b : ℤ => a ≤ b) st.time cps
  | st, [], acc, m, t, cps, h => by
    simp only [run_orders, Option.some.injEq, Prod.mk.injEq] at h
    rw [← h.2.2]
    exact List.Chain.nil
  | st, oid :: rest, acc, m, t, cps, h => by
    obtain ⟨o, st', cp, m', t', cps', _, hp, hr, _, _, hcps⟩ :=
      run_orders_cons inst st oid rest acc m t cps h
    obtain ⟨h1, h2, h3, h4, h5⟩ := process_order_mono inst.graph st o st' cp hp
    have hchain := run_orders_chain inst st' rest _ m' t' cps' hr
    subst hcps
    exact List.Chain.cons h1 (List.Chain.cons h2 (List.Chain.cons h3
      (List.Chain.cons h4 (by rw [← h5]; exact hchain))))

/-- C7: within one bot's simulated sequence, the clock checkpoints —
arrival at the restaurant, departure, arrival at the customer and
release after delivery, for each successive order — form a
monotonically non-decreasing sequence.  (Transit times are naturals,
i.e. the non-negative edge weights of the data model.) -/
theorem C7_monotone_checkpoints (inst : problem_instance) (st : BotState)
    (oids : List String) (acc m : List (String × Arrival)) (t : ℤ) (cps : List ℤ)
    (h : run_orders inst st oids acc = some (m, t, cps)) :
    List.Chain' (fun a b : ℤ => a ≤ b) cps :=
  @List.Chain'.tail ℤ (fun a b : ℤ => a ≤ b) (st.time :: cps)
    (run_orders_chain inst st oids acc m t cps h)

/-- C7 witness: the checkpoints of the concrete scenario. -/
theorem C7_witness :
    List.Chain' (fun a b : ℤ => a ≤ b) [721, 723, 725, 730] :=
  C7_monotone_checkpoints exInst ⟨"A", 720⟩ ["o1"] []
    [("o1", Arrival.served 725)] 730 [721, 723, 725, 730] (by decide)

/-- Orders not in the processed list leave the arrival dict unchanged
at their key. -/
theorem run_orders_lookup_skip (inst : problem_instance) (oid : String) :
    ∀ (st : BotState) (oids : List String) (acc m : List (String × Arrival))
      (t : ℤ) (cps : List ℤ), oid ∉ oids →
      run_orders inst st oids acc = some (m, t, cps) →
      lookupS oid m = lookupS oid acc
  | st, [], acc, m, t, cps, _, h => by
    simp only [run_orders, Option.some.injEq, Prod.mk.injEq] at h
    rw [h.1]
  | st, o1 :: rest, acc, m, t, cps, hnin, h => by
    obtain ⟨o, st', cp, m', t', cps', _, _, hr, rfl, _, _⟩ :=
      run_orders_cons inst st o1 rest acc m t cps h
    have hne : o1 ≠ oid := fun hh => hnin (hh ▸ List.mem_cons_self o1 rest)
    have hnin' : oid ∉ rest := fun hh => hnin (List.mem_cons_of_mem o1 hh)
    rw [run_orders_lookup_skip inst oid st' rest _ m t' cps' hnin' hr,
      lookupS_dinsert_ne o1 oid _ hne acc]

/-- Orders in no bot's sequence leave the simulated dict unchanged at
their key. -/
theorem run_bots_lookup_skip (inst : problem_instance) (oid : String) :
    ∀ (t : ℤ) (sol : Solution) (acc m0 : List (String × Arrival)),
      (∀ p ∈ sol, oid ∉ p.2) →
      run_bots inst t sol acc = some m0 →
      lookupS oid m0 = lookupS oid acc
  | t, [], acc, m0, _, h => by
    simp only [run_bots, Option.some.injEq] at h
    rw [h]
  | t, (b, oids) :: rest, acc, m0, hns, h => by
    obtain ⟨loc, acc', t', cps, _, hr, hb⟩ :=
      run_bots_cons inst t b oids rest acc m0 h
    have h1 : oid ∉ oids := hns (b, oids) (List.mem_cons_self _ _)
    have h2 : ∀ p ∈ rest, oid ∉ p.2 := fun p hp => hns p (List.mem_cons_of_mem _ hp)
    rw [run_bots_lookup_skip inst oid t' rest acc' m0 h2 hb,
      run_orders_lookup_skip inst oid ⟨loc, t⟩ oids acc acc' t' cps h1 hr]

/-- C5: an order appearing in no bot's sequence is reported as
`"unserved"` by `arrival_times`, and the score it contributes in
`evaluate` — `freshness_function(float('inf'), ...)` — is exactly the
score of the final, open-ended interval of its freshness function. -/
theorem C5_unserved_scores_last (inst : problem_instance) (sol : Solution)
    (m : List (String × Arrival)) (oid : String) (o : order)
    (hm : arrival_times inst sol = some m)
    (ho : (oid, o) ∈ inst.orders)
    (hns : ∀ p ∈ sol, oid ∉ p.2)
    (hf : o.freshness_function ≠ []) :
    lookupS oid m = some Arrival.unserved ∧
    freshness_function ⊤ o.freshness_function =
      some ((o.freshness_function.getLast hf).score) := by
  obtain ⟨m0, h0, rfl⟩ := arrival_times_eq inst sol m hm
  have hnone : lookupS oid m0 = none := by
    rw [run_bots_lookup_skip inst oid inst.horizon.start sol [] m0 hns h0]
    rfl
  constructor
  · rw [lookupS_append_right oid m0 _ hnone]
    exact lookupS_const_map oid Arrival.unserved _
      ⟨o, List.mem_filter.mpr ⟨ho, by simp [hnone]⟩⟩
  · rw [freshness_top, List.getLast?_eq_getLast _ hf]
    rfl

/-- C5 witness: order `o1` of the two-bot instance is assigned to no
bot in `twoSolB`. -/
theorem C5_witness :
    lookupS "o1" [("o2", Arrival.served 725), ("o1", Arrival.unserved)] =
      some Arrival.unserved ∧
    freshness_function ⊤ exOrder.freshness_function =
      some ((exOrder.freshness_function.getLast (by decide)).score) :=
  C5_unserved_scores_last twoInst twoSolB _ "o1" exOrder (by decide) (by decide)
    (by decide) (by decide)

/-! ## Lemmas for the transit-error claim -/

/-- Inversion principle for `Reachable`. -/
theorem reachable_cases {g : List Edge} {s e : String} (h : Reachable g s e) :
    s = e ∨ ∃ m w, (s, m, w) ∈ g ∧ Reachable g m e := by
  cases h with
  | refl => exact Or.inl rfl
  | step hm hr => exact Or.inr ⟨_, _, hm, hr⟩

/-- The update `edgeUpdate` only inserts the given edge or keeps old ones. -/
theorem mem_edgeUpdate :
    ∀ (m : List Edge) (e x : Edge), x ∈ edgeUpdate m e → x = e ∨ x ∈ m
  | [], e, x, hx => by
    rw [edgeUpdate] at hx
    exact Or.inl (List.mem_singleton.mp hx)
  | (t, h, w) :: rest, e, x, hx => by
    rw [edgeUpdate] at hx
    split at hx
    · rcases List.mem_cons.mp hx with rfl | h'
      · exact Or.inl rfl
      · exact Or.inr (List.mem_cons_of_mem _ h')
    · rcases List.mem_cons.mp hx with rfl | h'
      · exact Or.inr (List.mem_cons_self _ _)
      · rcases mem_edgeUpdate rest e x h' with h'' | h''
        · exact Or.inl h''
        · exact Or.inr (List.mem_cons_of_mem _ h'')

/-- Every edge of the built digraph is an edge of the raw list. -/
theorem mem_nx_weights (g : List Edge) (x : Edge) (hx : x ∈ nx_weights g) : x ∈ g := by
  have haux : ∀ (l acc : List Edge), x ∈ l.foldl edgeUpdate acc → x ∈ acc ∨ x ∈ l := by
    intro l
    induction l with
    | nil => intro acc h; exact Or.inl h
    | cons e rest ih =>
      intro acc h
      rw [List.foldl_cons] at h
      rcases ih (edgeUpdate acc e) h with h' | h'
      · rcases mem_edgeUpdate acc e x h' with h'' | h''
        · exact Or.inr (h'' ▸ List.mem_cons_self _ _)
        · exact Or.inl h''
      · exact Or.inr (List.mem_cons_of_mem _ h')
  rcases haux g [] hx with h | h
  · exact absurd h (List.not_mem_nil x)
  · exact h

/-- A defined `optMinCost` has a defined operand. -/
theorem optMinCost_isSome (a b : Option ℕ) :
    (optMinCost a b).isSome = true → a.isSome = true ∨ b.isSome = true := by
  cases a <;> cases b <;> simp [optMinCost]

/-- A defined fold of `optMinCost` starts defined or hits a defined
candidate. -/
theorem foldl_optMin_isSome (f : Edge → Option ℕ) :
    ∀ (l : List Edge) (acc : Option ℕ),
      (l.foldl (fun a ed => optMinCost a (f ed)) acc).isSome = true →
      acc.isSome = true ∨ ∃ ed ∈ l, (f ed).isSome = true
  | [], acc, h => Or.inl h
  | ed :: rest, acc, h => by
    rw [List.foldl_cons] at h
    rcases foldl_optMin_isSome f rest (optMinCost acc (f ed)) h with h' | ⟨ed', hm, hs⟩
    · rcases optMinCost_isSome acc (f ed) h' with h'' | h''
      · exact Or.inl h''
      · exact Or.inr ⟨ed, List.mem_cons_self _ _, h''⟩
    · exact Or.inr ⟨ed', List.mem_cons_of_mem _ hm, hs⟩

/-- A defined bounded walk cost witnesses reachability in the raw
edge list. -/
theorem walkCostF_reachable (g : List Edge) (e : String) :
    ∀ (f : ℕ) (s : String),
      (walkCostF (nx_weights g) e f s).isSome = true → Reachable g s e
  | 0, s, h => by
    rw [walkCostF] at h
    simp only [] at h
    split at h
    · exact (by assumption : s = e) ▸ Reachable.refl s
    · simp at h
  | f + 1, s, h => by
    rw [walkCostF] at h
    simp only [] at h
    split at h
    · exact (by assumption : s = e) ▸ Reachable.refl s
    · rcases foldl_optMin_isSome _ _ none h with h' | ⟨ed, hm, hs⟩
      · simp at h'
      · obtain ⟨hmem, hfilter⟩ := List.mem_filter.mp hm
        obtain ⟨t, mid, w⟩ := ed
        have hmid : Reachable g mid e := by
          apply walkCostF_reachable g e f mid
          cases hw : walkCostF (nx_weights g) e f mid with
          | none => rw [hw] at hs; simp at hs
          | some c => rfl
        have htails : t = s := by simpa using hfilter
        exact htails ▸ Reachable.step (mem_nx_weights g (t, mid, w) hmem) hmid

/-- Every value the simulation loop writes is a served arrival. -/
theorem run_orders_served (inst : problem_instance) :
    ∀ (st : BotState) (oids : List String) (acc m : List (String × Arrival))
      (t : ℤ) (cps : List ℤ),
      (∀ p ∈ acc, p.2 ≠ Arrival.unserved) →
      run_orders inst st oids acc = some (m, t, cps) →
      ∀ p ∈ m, p.2 ≠ Arrival.unserved
  | st, [], acc, m, t, cps, hacc, h => by
    simp only [run_orders, Option.some.injEq, Prod.mk.injEq] at h
    rw [← h.1]
    exact hacc
  | st, o1 :: rest, acc, m, t, cps, hacc, h => by
    obtain ⟨o, st', cp, m', t', cps', _, _, hr, rfl, _, _⟩ :=
      run_orders_cons inst st o1 rest acc m t cps h
    refine run_orders_served inst st' rest _ m t' cps' ?_ hr
    intro p hp
    rcases mem_dinsert o1 (Arrival.served (cp.custArrival % 1440)) acc p hp with rfl | hp'
    · simp
    · exact hacc p hp'

/-- Every value left by the whole bot loop is a served arrival. -/
theorem run_bots_served (inst : problem_instance) :
    ∀ (t : ℤ) (sol : Solution) (acc m0 : List (String × Arrival)),
      (∀ p ∈ acc, p.2 ≠ Arrival.unserved) →
      run_bots inst t sol acc = some m0 →
      ∀ p ∈ m0, p.2 ≠ Arrival.unserved
  | t, [], acc, m0, hacc, h => by
    simp only [run_bots, Option.some.injEq] at h
    rw [← h]
    exact hacc
  | t, (b, oids) :: rest, acc, m0, hacc, h => by
    obtain ⟨loc, acc', t', cps, _, hr, hb⟩ := run_bots_cons inst t b oids rest acc m0 h
    exact run_bots_served inst t' rest acc' m0
      (run_orders_served inst ⟨loc, t⟩ oids acc acc' t' cps hacc hr) hb

/-- Processing an order writes its key into the arrival dict. -/
theorem run_orders_lookup_isSome (inst : problem_instance) (oid : String) :
    ∀ (st : BotState) (oids : List String) (acc m : List (String × Arrival))
      (t : ℤ) (cps : List ℤ),
      (oid ∈ oids ∨ (lookupS oid acc).isSome = true) →
      run_orders inst st oids acc = some (m, t, cps) →
      (lookupS oid m).isSome = true
  | st, [], acc, m, t, cps, hin, h => by
    simp only [run_orders, Option.some.injEq, Prod.mk.injEq] at h
    rcases hin with hin | hin
    · exact absurd hin (List.not_mem_nil oid)
    · rw [← h.1]; exact hin
  | st, o1 :: rest, acc, m, t, cps, hin, h => by
    obtain ⟨o, st', cp, m', t', cps', _, _, hr, rfl, _, _⟩ :=
      run_orders_cons inst st o1 rest acc m t cps h
    refine run_orders_lookup_isSome inst oid st' rest _ m t' cps' ?_ hr
    by_cases hoid : oid ∈ rest
    · exact Or.inl hoid
    · refine Or.inr ?_
      rcases hin with hin | hin
      · rcases List.mem_cons.mp hin with rfl | hr'
        · rw [lookupS_dinsert_self oid (Arrival.served (cp.custArrival % 1440)) acc]
          rfl
        · exact absurd hr' hoid
      · by_cases he : o1 = oid
        · subst he
          rw [lookupS_dinsert_self o1 (Arrival.served (cp.custArrival % 1440)) acc]
          rfl
        · rw [lookupS_dinsert_ne o1 oid _ he acc]
          exact hin

/-- An order of some processed bot's sequence ends up in the dict. -/
theorem run_bots_lookup_isSome (inst : problem_instance) (oid : String) :
    ∀ (t : ℤ) (sol : Solution) (acc m0 : List (String × Arrival)),
      ((∃ p ∈ sol, oid ∈ p.2) ∨ (lookupS oid acc).isSome = true) →
      run_bots inst t sol acc = some m0 →
      (lookupS oid m0).isSome = true
  | t, [], acc, m0, hin, h => by
    simp only [run_bots, Option.some.injEq] at h
    rcases hin with ⟨p, hp, _⟩ | hin
    · exact absurd hp (List.not_mem_nil p)
    · rw [← h]; exact hin
  | t, (b, oids) :: rest, acc, m0, hin, h => by
    obtain ⟨loc, acc', t', cps, _, hr, hb⟩ := run_bots_cons inst t b oids rest acc m0 h
    refine run_bots_lookup_isSome inst oid t' rest acc' m0 ?_ hb
    rcases hin with ⟨p, hp, hpo⟩ | hin
    · rcases List.mem_cons.mp hp with rfl | hp'
      · exact Or.inr (run_orders_lookup_isSome inst oid ⟨loc, t⟩ oids acc acc' t' cps
          (Or.inl hpo) hr)
      · exact Or.inl ⟨p, hp', hpo⟩
    · exact Or.inr (run_orders_lookup_isSome inst oid ⟨loc, t⟩ oids acc acc' t' cps
        (Or.inr hin) hr)

/-- C6: the transit query returns 0 for a node queried against itself,
errors (rather than returning a value) when the destination is
unreachable, and an errored leg makes the whole order-processing step
error; consequently a successful simulation marks an order `"unserved"`
only when it appears in no bot's sequence — never because a required
leg had no path. -/
theorem C6_transit_errors (g : List Edge) (s e : String) :
    (s ∈ graph_nodes g → find_transit_time s s g = some 0) ∧
    (¬Reachable g s e → find_transit_time s e g = none) ∧
    (∀ (st : BotState) (o : order),
      find_transit_time st.loc o.restaurant_location g = none →
      process_order g st o = none) ∧
    (∀ (inst : problem_instance) (sol : Solution) (m : List (String × Arrival))
      (oid : String), arrival_times inst sol = some m →
      lookupS oid m = some Arrival.unserved → ∀ p ∈ sol, oid ∉ p.2) := by
  refine ⟨?_, ?_, ?_, ?_⟩
  · intro hs
    rw [find_transit_time, if_pos hs]
    cases (graph_nodes g).length with
    | zero => rw [walkCostF]; simp
    | succ f => rw [walkCostF]; simp
  · intro hur
    rw [find_transit_time]
    split
    · cases hw : walkCostF (nx_weights g) e (graph_nodes g).length s with
      | none => rfl
      | some c =>
        exact absurd (walkCostF_reachable g e (graph_nodes g).length s (by rw [hw]; rfl))
          hur
    · rfl
  · intro st o h
    rw [process_order, h]
    rfl
  · intro inst sol m oid hm hlk p hp hoid
    obtain ⟨m0, h0, rfl⟩ := arrival_times_eq inst sol m hm
    have hsome : (lookupS oid m0).isSome = true :=
      run_bots_lookup_isSome inst oid inst.horizon.start sol [] m0
        (Or.inl ⟨p, hp, hoid⟩) h0
    obtain ⟨v, hv⟩ := Option.isSome_iff_exists.mp hsome
    have hvm := lookupS_append_left oid m0
      ((inst.orders.filter (fun p => (lookupS p.1 m0).isNone)).map
        (fun p => (p.1, Arrival.unserved))) v hv
    rw [hlk] at hvm
    exact run_bots_served inst inst.horizon.start sol [] m0
      (fun q hq => absurd hq (List.not_mem_nil q)) h0
      (oid, v) (lookupS_mem oid v m0 hv) (by injection hvm with h'; rw [h'])

/-- C6 witness: graph `A→B` only; `B` is a node, `A` is unreachable
from `B`, a leg `B→A` errors the order step, and in the two-bot run the
unserved order `o1` is indeed in no sequence. -/
theorem C6_witness :
    find_transit_time "B" "B" [("A", "B", 1)] = some 0 ∧
    find_transit_time "B" "A" [("A", "B", 1)] = none ∧
    process_order [("A", "B", 1)] ⟨"B", 0⟩ ⟨"A", "B", 0, exFresh⟩ = none ∧
    "o1" ∉ (["o2"] : List String) := by
  have h := C6_transit_errors [("A", "B", 1)] "B" "A"
  have hnr : ¬Reachable [("A", "B", 1)] "B" "A" := by
    intro hr
    rcases reachable_cases hr with heq | ⟨mid, w, hmem, _⟩
    · exact absurd heq (by decide)
    · have hpair : ("B", mid, w) = ("A", "B", 1) := List.mem_singleton.mp hmem
      have h1 : ("B" : String) = "A" := congrArg Prod.fst hpair
      exact absurd h1 (by decide)
  refine ⟨h.1 (by decide), h.2.1 hnr, h.2.2.1 ⟨"B", 0⟩ ⟨"A", "B", 0, exFresh⟩ ?_, ?_⟩
  · exact h.2.1 hnr
  · exact h.2.2.2 twoInst twoSolB [("o2", Arrival.served 725), ("o1", Arrival.unserved)]
      "o1" (by decide) (by decide) ("b2", ["o2"]) (by decide)

/-! ## Lemmas for the instruction-renderer claim -/

/-- The last entry ignores the head of a list with a non-empty tail. -/
theorem getLast?_cons_of_ne {α : Type} (a : α) :
    ∀ (l : List α), l ≠ [] → (a :: l).getLast? = l.getLast?
  | [], h => absurd rfl h
  | b :: t, _ => by rw [List.getLast?_cons_cons]

/-- Invariant of the candidate fold of `walkPathF`: every produced
node list starts at the source and ends at the target. -/
theorem walkPath_fold_ends (e s : String) (prev : String → Option (ℕ × List String))
    (hprev : ∀ (n : String) (c : ℕ) (p : List String),
      prev n = some (c, p) → p.head? = some n ∧ p.getLast? = some e) :
    ∀ (l : List Edge) (acc : Option (ℕ × List String)),
      (∀ (c : ℕ) (p : List String), acc = some (c, p) →
        p.head? = some s ∧ p.getLast? = some e) →
      ∀ (c : ℕ) (p : List String),
        (l.foldl (fun acc ed =>
          match prev ed.2.1 with
          | none => acc
          | some (c, p) =>
            match acc with
            | none => some (ed.2.2 + c, s :: p)
            | some (c', p') =>
              if ed.2.2 + c < c' then some (ed.2.2 + c, s :: p) else some (c', p'))
          acc) = some (c, p) →
        p.head? = some s ∧ p.getLast? = some e
  | [], acc, hacc, c, p, h => hacc c p h
  | ed :: rest, acc, hacc, c, p, h => by
    rw [List.foldl_cons] at h
    refine walkPath_fold_ends e s prev hprev rest _ ?_ c p h
    intro c0 p0 h0
    cases hpv : prev ed.2.1 with
    | none =>
      rw [hpv] at h0
      exact hacc c0 p0 h0
    | some q =>
      obtain ⟨cq, pq⟩ := q
      rw [hpv] at h0
      obtain ⟨hh, hl⟩ := hprev ed.2.1 cq pq hpv
      have hpq_ne : pq ≠ [] := by
        intro hnil; rw [hnil] at hh; simp at hh
      have hlast : (s :: pq).getLast? = some e := by
        rw [getLast?_cons_of_ne s pq hpq_ne]; exact hl
      cases hacc2 : acc with
      | none =>
        rw [hacc2] at h0
        simp only [Option.some.injEq, Prod.mk.injEq] at h0
        rw [← h0.2]
        exact ⟨rfl, hlast⟩
      | some q' =>
        obtain ⟨cq', pq'⟩ := q'
        rw [hacc2] at h0
        simp only [] at h0
        split at h0
        · simp only [Option.some.injEq, Prod.mk.injEq] at h0
          rw [← h0.2]
          exact ⟨rfl, hlast⟩
        · simp only [Option.some.injEq, Prod.mk.injEq] at h0
          rw [← h0.2]
          exact hacc cq' pq' hacc2

/-- Every node list returned by the bounded walk search starts at the
queried source and ends at the target. -/
theorem walkPathF_ends (es : List Edge) (e : String) :
    ∀ (f : ℕ) (s : String) (c : ℕ) (p : List String),
      walkPathF es e f s = some (c, p) →
      p.head? = some s ∧ p.getLast? = some e
  | 0, s, c, p, h => by
    rw [walkPathF] at h
    simp only [] at h
    split at h
    · simp only [Option.some.injEq, Prod.mk.injEq] at h
      rw [← h.2]
      exact ⟨rfl, by simp [List.getLast?, *]⟩
    · simp at h
  | f + 1, s, c, p, h => by
    rw [walkPathF] at h
    simp only [] at h
    split at h
    · simp only [Option.some.injEq, Prod.mk.injEq] at h
      rw [← h.2]
      exact ⟨rfl, by simp [List.getLast?, *]⟩
    · exact walkPath_fold_ends e s (walkPathF es e f)
        (fun n c' p' h' => walkPathF_ends es e f n c' p' h')
        (es.filter (fun ed => ed.1 = s)) none (fun c' p' h' => by simp at h')
        c p h

/-- The modelled `nx.dijkstra_path` returns a node list from the
source to the target, endpoints included. -/
theorem nx_dijkstra_path_ends (s e : String) (g : List Edge) (p : List String)
    (h : nx_dijkstra_path s e g = some p) :
    p.head? = some s ∧ p.getLast? = some e := by
  rw [nx_dijkstra_path] at h
  split at h
  · cases hw : walkPathF (nx_weights g) e (graph_nodes g).length s with
    | none => rw [hw] at h; simp at h
    | some q =>
      obtain ⟨c, p'⟩ := q
      rw [hw] at h
      simp only [Option.map_some', Option.some.injEq] at h
      rw [← h]
      exact walkPathF_ends (nx_weights g) e (graph_nodes g).length s c p' hw
  · simp at h

/-- Folding "keep the newest" over a list lands on its last element. -/
theorem foldl_last_getD (loc : String) :
    ∀ (l : List String), l.foldl (fun _ n => n) loc = l.getLast?.getD loc
  | [] => rfl
  | a :: t => by
    rw [List.foldl_cons, foldl_last_getD a t]
    cases t with
    | nil => rfl
    | cons b t' =>
      rw [List.getLast?_cons_cons,
        List.getLast?_eq_getLast (b :: t') (by simp)]
      rfl

/-- Replaying the `go to` lines of one leg from the leg's source lands
on the leg's target. -/
theorem leg_end (loc tgt : String) (p : List String)
    (hh : p.head? = some loc) (hl : p.getLast? = some tgt) :
    (p.drop 1).foldl (fun _ n => n) loc = tgt := by
  cases p with
  | nil => simp at hh
  | cons a q =>
    have ha : a = loc := by simpa using hh
    subst ha
    cases q with
    | nil =>
      have : a = tgt := by simpa [List.getLast?] using hl
      simpa using this
    | cons b q' =>
      rw [List.getLast?_cons_cons] at hl
      have : (a :: b :: q').drop 1 = b :: q' := rfl
      rw [this, foldl_last_getD a (b :: q'), hl]
      rfl

/-- One `go to` line only moves the position. -/
theorem replay_check_move (loc n : String) (ts : List (Bool × String))
    (acts : List BotAction) :
    replay_check loc ts (BotAction.move n :: acts) = replay_check n ts acts := by
  cases ts with
  | nil => rfl
  | cons t ts' =>
    obtain ⟨b, tgt⟩ := t
    cases b <;> rfl

/-- A `collect food` line checks the position against the pending
restaurant. -/
theorem replay_check_collect (loc tgt : String) (ts : List (Bool × String))
    (acts : List BotAction) :
    replay_check loc ((true, tgt) :: ts) (BotAction.collect :: acts) =
      if loc = tgt then replay_check loc ts acts else false := rfl

/-- A `deliver food` line checks the position against the pending
customer. -/
theorem replay_check_deliver (loc tgt : String) (ts : List (Bool × String))
    (acts : List BotAction) :
    replay_check loc ((false, tgt) :: ts) (BotAction.deliver :: acts) =
      if loc = tgt then replay_check loc ts acts else false := rfl

/-- Replaying a block of `go to` lines just moves the position to the
last visited node. -/
theorem replay_moves (ts : List (Bool × String)) :
    ∀ (q : List String) (loc : String) (acts : List BotAction),
      replay_check loc ts (q.map BotAction.move ++ acts) =
        replay_check (q.foldl (fun _ n => n) loc) ts acts
  | [], _, _ => rfl
  | n :: rest, loc, acts => by
    simp only [List.map_cons, List.cons_append, List.foldl_cons]
    rw [replay_check_move loc n ts (rest.map BotAction.move ++ acts)]
    exact replay_moves ts rest n acts

/-- Destructuring a successful `render_order`. -/
theorem render_order_eq (inst : problem_instance) (loc oid : String)
    (acts : List BotAction) (loc' : String)
    (h : render_order inst loc oid = some (acts, loc')) :
    ∃ o p1 p2,
      lookupS oid inst.orders = some o ∧
      nx_dijkstra_path loc o.restaurant_location inst.graph = some p1 ∧
      nx_dijkstra_path ((p1.drop 1).foldl (fun _ n => n) loc) o.customer_location
        inst.graph = some p2 ∧
      acts = (p1.drop 1).map BotAction.move ++ [BotAction.collect] ++
        (p2.drop 1).map BotAction.move ++ [BotAction.deliver] ∧
      loc' = (p2.drop 1).foldl (fun _ n => n) ((p1.drop 1).foldl (fun _ n => n) loc) := by
  simp only [render_order, Option.bind_eq_bind, Option.bind_eq_some] at h
  obtain ⟨o, ho, h⟩ := h
  obtain ⟨p1, h1, h⟩ := h
  obtain ⟨p2, h2, h⟩ := h
  simp only [Option.pure_def, Option.some.injEq, Prod.mk.injEq] at h
  exact ⟨o, p1, p2, ho, h1, h2, h.1.symm, h.2.symm⟩

/-- Replaying the instruction block of one order crosses off its two
targets and leaves the position at the customer. -/
theorem render_order_replay (inst : problem_instance) (loc oid : String)
    (acts : List BotAction) (loc' : String) (o : order)
    (ho : lookupS oid inst.orders = some o)
    (h : render_order inst loc oid = some (acts, loc'))
    (ts : List (Bool × String)) (more : List BotAction) :
    replay_check loc ((true, o.restaurant_location) ::
      (false, o.customer_location) :: ts) (acts ++ more) =
    replay_check loc' ts more := by
  obtain ⟨o2, p1, p2, ho2, h1, h2, hacts, hloc'⟩ := render_order_eq inst loc oid acts loc' h
  rw [ho] at ho2
  injection ho2 with ho2
  subst ho2
  obtain ⟨hh1, hl1⟩ := nx_dijkstra_path_ends loc o.restaurant_location inst.graph p1 h1
  have hR : (p1.drop 1).foldl (fun _ n => n) loc = o.restaurant_location :=
    leg_end loc o.restaurant_location p1 hh1 hl1
  obtain ⟨hh2, hl2⟩ := nx_dijkstra_path_ends _ o.customer_location inst.graph p2 h2
  have hC : (p2.drop 1).foldl (fun _ n => n) ((p1.drop 1).foldl (fun _ n => n) loc) =
      o.customer_location := leg_end _ o.customer_location p2 hh2 hl2
  subst hacts
  subst hloc'
  have hC' := hC
  rw [hR] at hC'
  rw [show ((p1.drop 1).map BotAction.move ++ [BotAction.collect] ++
      (p2.drop 1).map BotAction.move ++ [BotAction.deliver]) ++ more =
    (p1.drop 1).map BotAction.move ++ (BotAction.collect ::
      ((p2.drop 1).map BotAction.move ++ (BotAction.deliver :: more))) from by
    simp]
  rw [replay_moves, hR, replay_check_collect, if_pos rfl, replay_moves, hC',
    replay_check_deliver, if_pos rfl]

/-- Replaying one bot's full instruction block from its start position
crosses off all its collect/deliver targets in sequence order. -/
theorem render_orders_replay (inst : problem_instance) :
    ∀ (oids : List String) (loc : String) (acts : List BotAction)
      (ts : List (Bool × String)),
      render_orders inst loc oids = some acts →
      targets inst oids = some ts →
      replay_check loc ts acts = true
  | [], loc, acts, ts, hr, ht => by
    simp only [render_orders, Option.some.injEq] at hr
    simp only [targets, Option.some.injEq] at ht
    rw [← hr, ← ht]
    rfl
  | oid :: rest, loc, acts, ts, hr, ht => by
    simp only [render_orders, Option.bind_eq_bind, Option.bind_eq_some] at hr
    obtain ⟨⟨acts1, loc'⟩, h1, hr⟩ := hr
    obtain ⟨acts2, h2, hr⟩ := hr
    simp only [Option.pure_def, Option.some.injEq] at hr
    simp only [targets, Option.bind_eq_bind, Option.bind_eq_some] at ht
    obtain ⟨o, ho, ht⟩ := ht
    obtain ⟨ts', ht', ht⟩ := ht
    simp only [Option.pure_def, Option.some.injEq] at ht
    rw [← hr, ← ht]
    rw [render_order_replay inst loc oid acts1 loc' o ho h1 ts' acts2]
    exact render_orders_replay inst rest loc' acts2 ts' h2 ht'

/-- C8: a successful `instruction_file` run emits one section per
solution line, headed by that line's bot; replaying each section's
`go to` lines from the bot's declared start location passes exactly
through the restaurant of each of its orders at the corresponding
`collect food` and exactly through the customer at the corresponding
`deliver food`, in sequence order, with no actions left over. -/
theorem C8_instruction_replay (inst : problem_instance) :
    ∀ (sol : Solution) (out : List (String × List BotAction)),
      instruction_file inst sol = some out →
      List.Forall₂ (fun (p : String × List String) (q : String × List BotAction) =>
        p.1 = q.1 ∧ ∀ (loc : String) (ts : List (Bool × String)),
          lookupS p.1 inst.bots = some loc → targets inst p.2 = some ts →
          replay_check loc ts q.2 = true) sol out
  | [], out, h => by
    simp only [instruction_file, Option.some.injEq] at h
    rw [← h]
    exact List.Forall₂.nil
  | (b, oids) :: rest, out, h => by
    simp only [instruction_file, Option.bind_eq_bind, Option.bind_eq_some] at h
    obtain ⟨loc, hl, h⟩ := h
    obtain ⟨acts, ha, h⟩ := h
    obtain ⟨out', ho, h⟩ := h
    simp only [Option.pure_def, Option.some.injEq] at h
    rw [← h]
    refine List.Forall₂.cons ⟨rfl, ?_⟩ (C8_instruction_replay inst rest out' ho)
    intro loc0 ts hl0 ht
    rw [hl] at hl0
    injection hl0 with hl0
    subst hl0
    exact render_orders_replay inst oids loc acts ts ha ht

/-- C8 witness: the rendered instructions of the concrete scenario
replay correctly. -/
theorem C8_witness :
    replay_check "A" [(true, "B"), (false, "C")]
      [BotAction.move "B", BotAction.collect, BotAction.move "C",
        BotAction.deliver] = true := by
  have h := C8_instruction_replay exInst exSol
    [("b1", [BotAction.move "B", BotAction.collect, BotAction.move "C",
      BotAction.deliver])] (by decide)
  rcases h with - | ⟨h1, -⟩
  exact h1.2 "A" [(true, "B"), (false, "C")] (by decide) (by decide)
